import Mathlib

/-!
Shallow embedding of the shape-document core of `pcl-demo`
(packages/ui/src/shapes.rs, shapes_doc.rs, shapes_ui.rs).

Modelling conventions:
* Rust `f64` coordinates are modelled as exact rationals `ℚ`; every
  concrete coordinate in the specification is a small integer, where
  `f64` arithmetic is exact, and the claims are about the arithmetic
  structure (min / absolute difference / translation), not rounding.
* Rust `usize` shape ids are modelled as `Nat`; the id counter only
  grows and no claim concerns wraparound.
* `std::collections::HashMap<ShapeId, Shape>` is modelled as an
  association list with the map's semantics (`hmLookup`, `hmInsert`,
  `hmErase`, `hmContainsKey`, `hmModifyGeometry`): a `HashMap` holds at
  most one entry per key, and these operations agree with it on every
  list whose keys are unique, which is the case for every reachable
  document state.
* The Rust methods mutate `&mut self`; they are modelled as pure
  functions `Document → Document` (or returning a pair when the Rust
  method also returns a value).
-/

namespace PclDemo

/-- `Color` from shapes.rs. -/
inductive Color where
  | Red | Orange | Yellow | Green | Blue | Indigo | Violet | White | Black
deriving DecidableEq, Repr, Fintype

namespace Color

/-- `Color::advance` from shapes.rs: cycle to the next color in the
fixed 9-value cycle. The Rust method mutates `self`; we return the new
value. -/
def advance : Color → Color
  | Red => Orange
  | Orange => Yellow
  | Yellow => Green
  | Green => Blue
  | Blue => Indigo
  | Indigo => Violet
  | Violet => Black
  | Black => White
  | White => Red

end Color

/-- `XYPoint` from shapes.rs, with `f64` modelled as `ℚ`. -/
structure XYPoint where
  x : ℚ
  y : ℚ
deriving DecidableEq, Repr

namespace XYPoint

/-- `XYPoint::new`. -/
def new (x y : ℚ) : XYPoint := ⟨x, y⟩

/-- `XYPoint::add`. -/
def add (p other : XYPoint) : XYPoint := new (p.x + other.x) (p.y + other.y)

/-- `XYPoint::subtract`. -/
def subtract (p other : XYPoint) : XYPoint := new (p.x - other.x) (p.y - other.y)

end XYPoint

/-- `Geometry` from shapes.rs. -/
inductive Geometry where
  | Rectangle (top_left : XYPoint) (size : XYPoint)
  | Circle (center : XYPoint) (radius : ℚ)
deriving DecidableEq, Repr

namespace Geometry

/-- `Geometry::rectangle`. -/
def rectangle (left top width height : ℚ) : Geometry :=
  Rectangle (XYPoint.new left top) (XYPoint.new width height)

/-- `Geometry::circle`. -/
def circle (cx cy radius : ℚ) : Geometry :=
  Circle (XYPoint.new cx cy) radius

/-- `Geometry::offset_by` from shapes.rs. -/
def offset_by (g : Geometry) (offset : XYPoint) : Geometry :=
  match g with
  | Rectangle top_left size => Rectangle (top_left.add offset) size
  | Circle center radius => Circle (center.add offset) radius

end Geometry

/-- `Style` from shapes.rs. -/
structure Style where
  fill : Color
deriving DecidableEq, Repr

/-- `Style::new`. -/
def Style.new (fill : Color) : Style := ⟨fill⟩

/-- `Shape` from shapes.rs. -/
structure Shape where
  geometry : Geometry
  style : Style
deriving DecidableEq, Repr

/-- `Shape::new`. -/
def Shape.new (geometry : Geometry) (style : Style) : Shape := ⟨geometry, style⟩

/-- `ShapeId` from shapes_doc.rs (`pub type ShapeId = usize`). -/
abbrev ShapeId := Nat

/-! ### The `HashMap<ShapeId, Shape>` model -/

/-- `HashMap::get`: the value stored at a key, if any (first matching
entry of the association list). -/
def hmLookup : List (ShapeId × Shape) → ShapeId → Option Shape
  | [], _ => none
  | (k, v) :: rest, key => if k = key then some v else hmLookup rest key

/-- `HashMap::contains_key`. -/
def hmContainsKey (m : List (ShapeId × Shape)) (key : ShapeId) : Bool :=
  (hmLookup m key).isSome

/-- `HashMap::insert`: replace the value at an existing key, otherwise
add a new entry. -/
def hmInsert : List (ShapeId × Shape) → ShapeId → Shape → List (ShapeId × Shape)
  | [], key, v => [(key, v)]
  | (k, w) :: rest, key, v =>
    if k = key then (key, v) :: rest else (k, w) :: hmInsert rest key v

/-- `HashMap::remove` (value discarded): remove the entry at a key. -/
def hmErase : List (ShapeId × Shape) → ShapeId → List (ShapeId × Shape)
  | [], _ => []
  | (k, v) :: rest, key =>
    if k = key then hmErase rest key else (k, v) :: hmErase rest key

/-- `HashMap::entry(key).and_modify(|shape| shape.geometry = g)`:
update the geometry of the entry at the key, if present; never inserts. -/
def hmModifyGeometry (m : List (ShapeId × Shape)) (key : ShapeId) (g : Geometry) :
    List (ShapeId × Shape) :=
  m.map (fun p => if p.1 = key then (p.1, { p.2 with geometry := g }) else p)

/-! ### Sequence (Vec<ShapeId>) helpers used by shapes_doc.rs -/

/-- `Vec::iter().position(|id| id == key)`: index of the first
occurrence. -/
def positionOf : List ShapeId → ShapeId → Option Nat
  | [], _ => none
  | x :: rest, key => if x = key then some 0 else (positionOf rest key).map (· + 1)

/-- `Vec::remove(idx)` preceded by the `position` search: remove the
first occurrence of a value. -/
def removeFirst : List ShapeId → ShapeId → List ShapeId
  | [], _ => []
  | x :: rest, key => if x = key then rest else x :: removeFirst rest key

/-! ### Document -/

/-- `Document` from shapes_doc.rs. -/
structure Document where
  shapes : List (ShapeId × Shape)
  sequence : List ShapeId
  next_shape_id : Nat
deriving DecidableEq, Repr

/-- `DocError` from shapes_doc.rs. -/
inductive DocError where
  | DuplicateShapeId (id : ShapeId)
deriving DecidableEq, Repr

namespace Document

/-- `Document::new_empty`. -/
def new_empty : Document :=
  { sequence := [], shapes := [], next_shape_id := 1 }

/-- Loop body of `Document::new_from_pairs`, folded over the input
pairs. -/
def new_from_pairs_aux : Document → List (ShapeId × Shape) → Except DocError Document
  | doc, [] => .ok doc
  | doc, (shape_id, shape) :: rest =>
    if hmContainsKey doc.shapes shape_id then
      .error (.DuplicateShapeId shape_id)
    else
      new_from_pairs_aux
        { doc with
          sequence := doc.sequence ++ [shape_id]
          shapes := hmInsert doc.shapes shape_id shape
          next_shape_id :=
            if doc.next_shape_id ≤ shape_id then shape_id + 1 else doc.next_shape_id }
        rest

/-- `Document::new_from_pairs`. -/
def new_from_pairs (pairs : List (ShapeId × Shape)) : Except DocError Document :=
  new_from_pairs_aux new_empty pairs

/-- `Document::get_shape_by_id`. -/
def get_shape_by_id (d : Document) (shape_id : ShapeId) : Option Shape :=
  hmLookup d.shapes shape_id

/-- `Document::generate_shape_id`: returns the fresh id and the updated
document. -/
def generate_shape_id (d : Document) : ShapeId × Document :=
  (d.next_shape_id, { d with next_shape_id := d.next_shape_id + 1 })

/-- `Document::upsert_shape_with_id`. -/
def upsert_shape_with_id (d : Document) (shape_id : ShapeId) (shape : Shape) : Document :=
  let d₁ :=
    if shape_id ∈ d.sequence then d
    else { d with sequence := d.sequence ++ [shape_id] }
  let d₂ := { d₁ with shapes := hmInsert d₁.shapes shape_id shape }
  if d₂.next_shape_id ≤ shape_id then { d₂ with next_shape_id := shape_id + 1 } else d₂

/-- `Document::delete_shape_with_id`. -/
def delete_shape_with_id (d : Document) (shape_id : ShapeId) : Document :=
  let seq :=
    match positionOf d.sequence shape_id with
    | some _ => removeFirst d.sequence shape_id
    | none => d.sequence
  { d with sequence := seq, shapes := hmErase d.shapes shape_id }

/-- `Document::update_geometry_for_shape_id`. -/
def update_geometry_for_shape_id (d : Document) (shape_id : ShapeId)
    (new_geometry : Geometry) : Document :=
  { d with shapes := hmModifyGeometry d.shapes shape_id new_geometry }

/-- `Document::move_shape_with_id_to_top`. -/
def move_shape_with_id_to_top (d : Document) (shape_id : ShapeId) : Document :=
  match positionOf d.sequence shape_id with
  | none => d
  | some idx =>
    if idx ≠ d.sequence.length - 1 then
      { d with sequence := (d.sequence.eraseIdx idx) ++ [shape_id] }
    else d

/-- `Document::new_from_shapes`. -/
def new_from_shapes (shapes : List Shape) : Document :=
  shapes.foldl
    (fun doc shape =>
      let (shape_id, doc) := doc.generate_shape_id
      doc.upsert_shape_with_id shape_id shape)
    new_empty

end Document

/-! ### shapes_ui.rs: color cycler and trackers

The UI functions act on the global signals `APP_STATE` (whose state is
one `fill_color : Color`) and `DOC`; they are modelled as pure
functions on that state. Mouse events are modelled by the `XYPoint`
their page coordinates convert to (`xy_point_from_page_coordinates`). -/

/-- `AppState::get_fill_color_and_advance` from shapes_ui.rs, on the
state `fill_color`: returns the old color and the advanced state. -/
def get_fill_color_and_advance (fill_color : Color) : Color × Color :=
  (fill_color, fill_color.advance)

set_option linter.unusedVariables false in
/-- `AppState::get_fill_color_and_advance_skipping_white` from
shapes_ui.rs: draw a color and advance; if the drawn color is White,
discard it and draw again. The Rust recursion terminates because
`advance` moves off White; the measure below records that. -/
def get_fill_color_and_advance_skipping_white (fill_color : Color) : Color × Color :=
  if h : (get_fill_color_and_advance fill_color).1 = Color.White then
    get_fill_color_and_advance_skipping_white (get_fill_color_and_advance fill_color).2
  else
    get_fill_color_and_advance fill_color
termination_by match fill_color with | Color.White => 1 | _ => 0
decreasing_by
  simp only [get_fill_color_and_advance] at h
  subst h
  simp [Color.advance, get_fill_color_and_advance]

/-- The colors returned by `n` successive calls of
`get_fill_color_and_advance_skipping_white`, with the final state. -/
def drawSkippingWhiteN : Nat → Color → List Color × Color
  | 0, fill_color => ([], fill_color)
  | n + 1, fill_color =>
    let (c, state) := get_fill_color_and_advance_skipping_white fill_color
    let (rest, final) := drawSkippingWhiteN n state
    (c :: rest, final)

/-- `TrackerNext` from shapes_ui.rs. -/
inductive TrackerNext where
  | Continue
  | Done
deriving DecidableEq, Repr

/-- `to_min_span` from shapes_ui.rs: the minimum coordinate and the
non-negative span to the other coordinate. -/
def to_min_span (x1 x2 : ℚ) : ℚ × ℚ :=
  if x1 < x2 then (x1, x2 - x1) else (x2, x1 - x2)

/-- `NewRectTracker` from shapes_ui.rs. -/
structure NewRectTracker where
  mouse_down : XYPoint
  shape_id : ShapeId
  style : Style
deriving DecidableEq, Repr

namespace NewRectTracker

/-- `NewRectTracker::post_shape_for_event`: the mouse event is modelled
by its page coordinates, and the write to the global `DOC` by a
`Document → Document` function. -/
def post_shape_for_event (t : NewRectTracker) (event_coords : XYPoint)
    (doc : Document) : Document :=
  let (min_x, span_x) := to_min_span t.mouse_down.x event_coords.x
  let (min_y, span_y) := to_min_span t.mouse_down.y event_coords.y
  if 0 < span_x ∧ 0 < span_y then
    doc.upsert_shape_with_id t.shape_id
      { geometry := Geometry.Rectangle (XYPoint.new min_x min_y) (XYPoint.new span_x span_y)
        style := t.style }
  else
    doc.delete_shape_with_id t.shape_id

/-- `<NewRectTracker as Tracker>::track_mouse_move`. -/
def track_mouse_move (t : NewRectTracker) (event_coords : XYPoint)
    (doc : Document) : Document × TrackerNext :=
  (t.post_shape_for_event event_coords doc, TrackerNext.Continue)

/-- `<NewRectTracker as Tracker>::track_mouse_up`. -/
def track_mouse_up (t : NewRectTracker) (event_coords : XYPoint)
    (doc : Document) : Document :=
  t.post_shape_for_event event_coords doc

end NewRectTracker

/-- `ShapeDragTracker` from shapes_ui.rs. -/
structure ShapeDragTracker where
  mouse_down : XYPoint
  shape_id : ShapeId
  initial_geometry : Geometry
deriving DecidableEq, Repr

namespace ShapeDragTracker

/-- `ShapeDragTracker::update_shape_for_drag`. -/
def update_shape_for_drag (t : ShapeDragTracker) (event_coords : XYPoint)
    (doc : Document) : Document :=
  let delta := event_coords.subtract t.mouse_down
  let new_geometry := t.initial_geometry.offset_by delta
  doc.update_geometry_for_shape_id t.shape_id new_geometry

/-- `<ShapeDragTracker as Tracker>::track_mouse_move`. -/
def track_mouse_move (t : ShapeDragTracker) (event_coords : XYPoint)
    (doc : Document) : Document × TrackerNext :=
  (t.update_shape_for_drag event_coords doc, TrackerNext.Continue)

/-- `<ShapeDragTracker as Tracker>::track_mouse_up`. -/
def track_mouse_up (t : ShapeDragTracker) (event_coords : XYPoint)
    (doc : Document) : Document :=
  t.update_shape_for_drag event_coords doc

end ShapeDragTracker

/-! ### Mutator call sequences

The document mutators called by the UI, as an operation type: one value
per call, folded left-to-right over a document. -/

/-- One call to a `Document` mutator. -/
inductive DocOp where
  | upsert (shape_id : ShapeId) (shape : Shape)
  | delete (shape_id : ShapeId)
  | updateGeometry (shape_id : ShapeId) (g : Geometry)
  | moveToTop (shape_id : ShapeId)
  | genId
deriving DecidableEq, Repr

/-- Apply one mutator call. -/
def applyOp (d : Document) : DocOp → Document
  | .upsert shape_id shape => d.upsert_shape_with_id shape_id shape
  | .delete shape_id => d.delete_shape_with_id shape_id
  | .updateGeometry shape_id g => d.update_geometry_for_shape_id shape_id g
  | .moveToTop shape_id => d.move_shape_with_id_to_top shape_id
  | .genId => (d.generate_shape_id).2

/-- Apply a sequence of mutator calls, left to right. -/
def applyOps (d : Document) (ops : List DocOp) : Document :=
  ops.foldl applyOp d

/-- The spec's document invariant: the set of ids in `sequence` equals
the key set of `shapes`. -/
def SeqKeyInv (d : Document) : Prop :=
  ∀ id : ShapeId, id ∈ d.sequence ↔ (d.get_shape_by_id id).isSome

/-- The representation invariant of `Document`: its fields are private
in the source, and every document constructible through the public API
has a duplicate-free `sequence` whose id set equals the key set of
`shapes`. -/
def Document.WF (d : Document) : Prop :=
  d.sequence.Nodup ∧ SeqKeyInv d

/-! ### Auxiliary definitions used by the verification -/

/-- Sample style used by concrete witnesses. -/
def sampleStyle : Style := Style.new Color.Red

/-- Sample shape used by concrete witnesses. -/
def sampleShape : Shape := Shape.new (Geometry.rectangle 0 0 10 10) sampleStyle

/-- Sample geometry used by concrete witnesses. -/
def sampleGeometry : Geometry := Geometry.circle 1 2 3

/-- Closed form of `get_fill_color_and_advance_skipping_white`, used to
evaluate it inside kernel reduction (the source function is defined by
well-founded recursion, which does not reduce definitionally). -/
def skipWhiteTable (c : Color) : Color × Color :=
  if c = Color.White then (Color.Red, Color.Orange) else (c, c.advance)

/-- Structural twin of `drawSkippingWhiteN` via `skipWhiteTable`. -/
def drawTableN : Nat → Color → List Color × Color
  | 0, c => ([], c)
  | n + 1, c =>
    let p := skipWhiteTable c
    let rest := drawTableN n p.2
    (p.1 :: rest.1, rest.2)

/-- The ids handed out by `n` successive calls of
`Document::generate_shape_id`, with the final document. -/
def generateN : Nat → Document → List ShapeId × Document
  | 0, d => ([], d)
  | n + 1, d =>
    let p := d.generate_shape_id
    let rest := generateN n p.2
    (p.1 :: rest.1, rest.2)

/-- Stated from the specification's wording for comparison with
`new_from_pairs`: scanning left to right with an accumulator of ids
already seen, the first id that repeats an earlier one, if any. -/
def specFirstRepeatedId (seen : List ShapeId) : List ShapeId → Option ShapeId
  | [] => none
  | i :: rest => if i ∈ seen then some i else specFirstRepeatedId (i :: seen) rest

/-! ### Lemmas about the `HashMap` model -/

theorem hmLookup_hmInsert_self (m : List (ShapeId × Shape)) (k : ShapeId) (v : Shape) :
    hmLookup (hmInsert m k v) k = some v := by
  induction m with
  | nil => simp [hmInsert, hmLookup]
  | cons p t ih =>
    obtain ⟨a, b⟩ := p
    by_cases hak : a = k
    · subst hak; simp [hmInsert, hmLookup]
    · simp [hmInsert, hmLookup, hak, ih]

theorem hmLookup_hmInsert_ne (m : List (ShapeId × Shape)) (k k' : ShapeId) (v : Shape)
    (h : k' ≠ k) : hmLookup (hmInsert m k v) k' = hmLookup m k' := by
  induction m with
  | nil => simp [hmInsert, hmLookup, Ne.symm h]
  | cons p t ih =>
    obtain ⟨a, b⟩ := p
    by_cases hak : a = k
    · subst hak
      simp [hmInsert, hmLookup, Ne.symm h]
    · by_cases hak' : a = k'
      · subst hak'; simp [hmInsert, hmLookup, hak]
      · simp [hmInsert, hmLookup, hak, hak', ih]

theorem hmInsert_idem (m : List (ShapeId × Shape)) (k : ShapeId) (v : Shape) :
    hmInsert (hmInsert m k v) k v = hmInsert m k v := by
  induction m with
  | nil => simp [hmInsert]
  | cons p t ih =>
    obtain ⟨a, b⟩ := p
    by_cases hak : a = k
    · subst hak; simp [hmInsert]
    · simp [hmInsert, hak, ih]

theorem hmLookup_hmErase_self (m : List (ShapeId × Shape)) (k : ShapeId) :
    hmLookup (hmErase m k) k = none := by
  induction m with
  | nil => simp [hmErase, hmLookup]
  | cons p t ih =>
    obtain ⟨a, b⟩ := p
    by_cases hak : a = k
    · simpa [hmErase, hak] using ih
    · simpa [hmErase, hmLookup, hak] using ih

theorem hmLookup_hmErase_ne (m : List (ShapeId × Shape)) (k k' : ShapeId) (h : k' ≠ k) :
    hmLookup (hmErase m k) k' = hmLookup m k' := by
  induction m with
  | nil => simp [hmErase, hmLookup]
  | cons p t ih =>
    obtain ⟨a, b⟩ := p
    by_cases hak : a = k
    · subst hak
      simp only [hmErase, eq_self_iff_true, if_true]
      rw [ih]
      simp [hmLookup, Ne.symm h]
    · by_cases hak' : a = k'
      · subst hak'
        simp [hmErase, hmLookup, hak]
      · simp [hmErase, hmLookup, hak, hak', ih]

theorem hmErase_of_lookup_none (m : List (ShapeId × Shape)) (k : ShapeId)
    (h : hmLookup m k = none) : hmErase m k = m := by
  induction m with
  | nil => simp [hmErase]
  | cons p t ih =>
    obtain ⟨a, b⟩ := p
    by_cases hak : a = k
    · simp [hmLookup, hak] at h
    · simp only [hmLookup, hak, if_false] at h
      simp only [hmErase, if_neg hak]
      rw [ih h]

theorem hmLookup_hmModifyGeometry_self (m : List (ShapeId × Shape)) (k : ShapeId)
    (g : Geometry) :
    hmLookup (hmModifyGeometry m k g) k =
      (hmLookup m k).map (fun s => { s with geometry := g }) := by
  induction m with
  | nil => simp [hmModifyGeometry, hmLookup]
  | cons p t ih =>
    obtain ⟨a, b⟩ := p
    simp only [hmModifyGeometry, List.map_cons] at ih ⊢
    by_cases hak : a = k
    · subst hak
      rw [if_pos rfl]
      simp [hmLookup]
    · rw [if_neg hak]
      simp only [hmLookup, hak, if_false]
      exact ih

theorem hmLookup_hmModifyGeometry_ne (m : List (ShapeId × Shape)) (k k' : ShapeId)
    (g : Geometry) (h : k' ≠ k) :
    hmLookup (hmModifyGeometry m k g) k' = hmLookup m k' := by
  induction m with
  | nil => simp [hmModifyGeometry, hmLookup]
  | cons p t ih =>
    obtain ⟨a, b⟩ := p
    simp only [hmModifyGeometry, List.map_cons] at ih ⊢
    by_cases hak : a = k
    · subst hak
      rw [if_pos rfl]
      simp only [hmLookup, Ne.symm h, if_false]
      exact ih
    · rw [if_neg hak]
      by_cases hak' : a = k'
      · subst hak'; simp [hmLookup]
      · simp only [hmLookup, hak', if_false]
        exact ih

theorem hmModifyGeometry_of_lookup_none (m : List (ShapeId × Shape)) (k : ShapeId)
    (g : Geometry) (h : hmLookup m k = none) : hmModifyGeometry m k g = m := by
  induction m with
  | nil => simp [hmModifyGeometry]
  | cons p t ih =>
    obtain ⟨a, b⟩ := p
    by_cases hak : a = k
    · simp [hmLookup, hak] at h
    · simp only [hmLookup, hak, if_false] at h
      simp only [hmModifyGeometry, List.map_cons, if_neg hak] at ih ⊢
      rw [ih h]

/-! ### Lemmas about the sequence helpers -/

theorem positionOf_eq_none_iff (l : List ShapeId) (k : ShapeId) :
    positionOf l k = none ↔ k ∉ l := by
  induction l with
  | nil => simp [positionOf]
  | cons x t ih =>
    by_cases hxk : x = k
    · subst hxk; simp [positionOf]
    · simp only [positionOf, if_neg hxk, Option.map_eq_none', ih, List.mem_cons, not_or]
      constructor
      · intro h
        exact ⟨fun he => hxk he.symm, h⟩
      · exact fun h => h.2

theorem removeFirst_of_not_mem (l : List ShapeId) (k : ShapeId) (h : k ∉ l) :
    removeFirst l k = l := by
  induction l with
  | nil => rfl
  | cons x t ih =>
    simp only [List.mem_cons, not_or] at h
    have hxk : ¬ x = k := fun he => h.1 he.symm
    simp [removeFirst, hxk, ih h.2]

theorem removeFirst_sublist (l : List ShapeId) (k : ShapeId) :
    List.Sublist (removeFirst l k) l := by
  induction l with
  | nil => simp [removeFirst]
  | cons x t ih =>
    by_cases hxk : x = k
    · rw [show removeFirst (x :: t) k = t by simp [removeFirst, hxk]]
      exact List.sublist_cons_self x t
    · rw [show removeFirst (x :: t) k = x :: removeFirst t k by simp [removeFirst, hxk]]
      exact List.Sublist.cons₂ x ih

theorem nodup_removeFirst (l : List ShapeId) (k : ShapeId) (h : l.Nodup) :
    (removeFirst l k).Nodup :=
  h.sublist (removeFirst_sublist l k)

theorem mem_removeFirst_of_nodup (l : List ShapeId) (k k' : ShapeId) (h : l.Nodup) :
    k' ∈ removeFirst l k ↔ (k' ∈ l ∧ k' ≠ k) := by
  induction l with
  | nil => simp [removeFirst]
  | cons x t ih =>
    rw [List.nodup_cons] at h
    by_cases hxk : x = k
    · subst hxk
      simp only [removeFirst, if_pos rfl, List.mem_cons]
      constructor
      · intro hk'
        exact ⟨Or.inr hk', fun he => h.1 (he ▸ hk')⟩
      · rintro ⟨(he | hk'), hne⟩
        · exact absurd he hne
        · exact hk'
    · simp only [removeFirst, if_neg hxk, List.mem_cons, ih h.2]
      constructor
      · rintro (he | ⟨hk', hne⟩)
        · exact ⟨Or.inl he, he ▸ hxk⟩
        · exact ⟨Or.inr hk', hne⟩
      · rintro ⟨(he | hk'), hne⟩
        · exact Or.inl he
        · exact Or.inr ⟨hk', hne⟩

theorem positionOf_some_eraseIdx (l : List ShapeId) (k : ShapeId) (idx : Nat)
    (h : positionOf l k = some idx) : l.eraseIdx idx = removeFirst l k := by
  induction l generalizing idx with
  | nil => simp [positionOf] at h
  | cons x t ih =>
    by_cases hxk : x = k
    · subst hxk
      rw [show positionOf (x :: t) x = some 0 by simp [positionOf]] at h
      have h0 : 0 = idx := Option.some.inj h
      subst h0
      simp [removeFirst]
    · simp only [positionOf, if_neg hxk] at h
      obtain ⟨m, hm, hmk⟩ := Option.map_eq_some'.mp h
      subst hmk
      simp [List.eraseIdx, removeFirst, hxk, ih m hm]

theorem positionOf_mem (l : List ShapeId) (k : ShapeId) (idx : Nat)
    (h : positionOf l k = some idx) : k ∈ l := by
  by_contra hk
  rw [← positionOf_eq_none_iff] at hk
  simp [hk] at h

/-! ### Characterisation of the document mutators -/

/-- Two documents with the same fields are equal. -/
theorem Document.eq_of_fields (a b : Document) (h1 : a.shapes = b.shapes)
    (h2 : a.sequence = b.sequence) (h3 : a.next_shape_id = b.next_shape_id) : a = b := by
  cases a; cases b; simp_all

theorem upsert_shapes (d : Document) (id : ShapeId) (s : Shape) :
    (d.upsert_shape_with_id id s).shapes = hmInsert d.shapes id s := by
  simp only [Document.upsert_shape_with_id]
  by_cases hm : id ∈ d.sequence <;> simp [hm] <;> split <;> rfl

theorem upsert_sequence (d : Document) (id : ShapeId) (s : Shape) :
    (d.upsert_shape_with_id id s).sequence =
      if id ∈ d.sequence then d.sequence else d.sequence ++ [id] := by
  simp only [Document.upsert_shape_with_id]
  by_cases hm : id ∈ d.sequence <;> simp [hm] <;> split <;> rfl

theorem upsert_next_shape_id (d : Document) (id : ShapeId) (s : Shape) :
    (d.upsert_shape_with_id id s).next_shape_id =
      if d.next_shape_id ≤ id then id + 1 else d.next_shape_id := by
  simp only [Document.upsert_shape_with_id]
  by_cases hm : id ∈ d.sequence <;> simp [hm] <;> split <;> simp_all

theorem upsert_next_gt (d : Document) (id : ShapeId) (s : Shape) :
    id < (d.upsert_shape_with_id id s).next_shape_id := by
  rw [upsert_next_shape_id]
  by_cases h : d.next_shape_id ≤ id
  · simp [h]
  · rw [if_neg h]
    exact Nat.lt_of_not_le h

theorem delete_shapes (d : Document) (id : ShapeId) :
    (d.delete_shape_with_id id).shapes = hmErase d.shapes id := rfl

theorem delete_sequence (d : Document) (id : ShapeId) :
    (d.delete_shape_with_id id).sequence = removeFirst d.sequence id := by
  simp only [Document.delete_shape_with_id]
  cases hpos : positionOf d.sequence id with
  | none => simp [removeFirst_of_not_mem _ _ ((positionOf_eq_none_iff _ _).mp hpos)]
  | some idx => rfl

theorem delete_next_shape_id (d : Document) (id : ShapeId) :
    (d.delete_shape_with_id id).next_shape_id = d.next_shape_id := rfl

theorem update_geometry_shapes (d : Document) (id : ShapeId) (g : Geometry) :
    (d.update_geometry_for_shape_id id g).shapes = hmModifyGeometry d.shapes id g := rfl

theorem update_geometry_sequence (d : Document) (id : ShapeId) (g : Geometry) :
    (d.update_geometry_for_shape_id id g).sequence = d.sequence := rfl

theorem update_geometry_next_shape_id (d : Document) (id : ShapeId) (g : Geometry) :
    (d.update_geometry_for_shape_id id g).next_shape_id = d.next_shape_id := rfl

theorem move_to_top_shapes (d : Document) (id : ShapeId) :
    (d.move_shape_with_id_to_top id).shapes = d.shapes := by
  cases hpos : positionOf d.sequence id with
  | none => simp [Document.move_shape_with_id_to_top, hpos]
  | some idx =>
    simp only [Document.move_shape_with_id_to_top, hpos]
    by_cases hlen : idx = d.sequence.length - 1
    · rw [if_neg (by simpa using hlen)]
    · rw [if_pos hlen]

theorem move_to_top_next_shape_id (d : Document) (id : ShapeId) :
    (d.move_shape_with_id_to_top id).next_shape_id = d.next_shape_id := by
  cases hpos : positionOf d.sequence id with
  | none => simp [Document.move_shape_with_id_to_top, hpos]
  | some idx =>
    simp only [Document.move_shape_with_id_to_top, hpos]
    by_cases hlen : idx = d.sequence.length - 1
    · rw [if_neg (by simpa using hlen)]
    · rw [if_pos hlen]

/-! ### Preservation of the representation invariant -/

theorem new_empty_WF : Document.new_empty.WF := by
  refine ⟨List.nodup_nil, fun id => ?_⟩
  simp [Document.new_empty, Document.get_shape_by_id, SeqKeyInv, hmLookup]

theorem WF_upsert (d : Document) (id : ShapeId) (s : Shape) (h : d.WF) :
    (d.upsert_shape_with_id id s).WF := by
  obtain ⟨hnd, hinv⟩ := h
  constructor
  · rw [upsert_sequence]
    by_cases hm : id ∈ d.sequence
    · simpa [hm] using hnd
    · simp only [hm, if_false]
      simpa [List.nodup_append] using ⟨hnd, hm⟩
  · intro id'
    simp only [Document.get_shape_by_id, upsert_shapes, upsert_sequence]
    by_cases hid : id' = id
    · subst hid
      simp only [hmLookup_hmInsert_self, Option.isSome_some, iff_true]
      by_cases hm : id' ∈ d.sequence <;> simp [hm]
    · rw [hmLookup_hmInsert_ne _ _ _ _ hid]
      by_cases hm : id ∈ d.sequence
      · simpa [hm] using hinv id'
      · simp only [hm, if_false, List.mem_append, List.mem_singleton, hid, or_false]
        exact hinv id'

theorem WF_delete (d : Document) (id : ShapeId) (h : d.WF) :
    (d.delete_shape_with_id id).WF := by
  obtain ⟨hnd, hinv⟩ := h
  constructor
  · rw [delete_sequence]
    exact nodup_removeFirst _ _ hnd
  · intro id'
    simp only [Document.get_shape_by_id, delete_shapes, delete_sequence]
    by_cases hid : id' = id
    · subst hid
      simp [hmLookup_hmErase_self, mem_removeFirst_of_nodup _ _ _ hnd]
    · rw [hmLookup_hmErase_ne _ _ _ hid, mem_removeFirst_of_nodup _ _ _ hnd]
      simp only [hid, ne_eq, not_false_eq_true, and_true]
      exact hinv id'

theorem WF_update_geometry (d : Document) (id : ShapeId) (g : Geometry) (h : d.WF) :
    (d.update_geometry_for_shape_id id g).WF := by
  obtain ⟨hnd, hinv⟩ := h
  refine ⟨hnd, fun id' => ?_⟩
  simp only [Document.get_shape_by_id, update_geometry_shapes, update_geometry_sequence]
  by_cases hid : id' = id
  · subst hid
    rw [hmLookup_hmModifyGeometry_self]
    simpa using hinv id'
  · rw [hmLookup_hmModifyGeometry_ne _ _ _ _ hid]
    exact hinv id'

theorem WF_move_to_top (d : Document) (id : ShapeId) (h : d.WF) :
    (d.move_shape_with_id_to_top id).WF := by
  obtain ⟨hnd, hinv⟩ := h
  cases hpos : positionOf d.sequence id with
  | none => simpa only [Document.move_shape_with_id_to_top, hpos] using And.intro hnd hinv
  | some idx =>
    simp only [Document.move_shape_with_id_to_top, hpos]
    by_cases hlen : idx = d.sequence.length - 1
    case neg =>
      rw [if_pos hlen]
      have hmem : id ∈ d.sequence := positionOf_mem _ _ _ hpos
      rw [positionOf_some_eraseIdx _ _ _ hpos]
      constructor
      · rw [List.nodup_append]
        refine ⟨nodup_removeFirst _ _ hnd, List.nodup_singleton id, ?_⟩
        intro a ha hb
        rw [List.mem_singleton] at hb
        subst hb
        exact ((mem_removeFirst_of_nodup _ _ _ hnd).mp ha).2 rfl
      · intro id'
        simp only [List.mem_append, List.mem_singleton,
          mem_removeFirst_of_nodup _ _ _ hnd]
        constructor
        · rintro (⟨hmem', _⟩ | rfl)
          · exact (hinv id').mp hmem'
          · exact (hinv id').mp hmem
        · intro hsome
          by_cases hid : id' = id
          · exact Or.inr hid
          · exact Or.inl ⟨(hinv id').mpr hsome, hid⟩
    case pos =>
      rw [if_neg (by simpa using hlen)]
      exact ⟨hnd, hinv⟩

theorem WF_genId (d : Document) (h : d.WF) : (d.generate_shape_id).2.WF := by
  obtain ⟨hnd, hinv⟩ := h
  exact ⟨hnd, hinv⟩

theorem WF_applyOp (d : Document) (op : DocOp) (h : d.WF) : (applyOp d op).WF := by
  cases op with
  | upsert id s => exact WF_upsert d id s h
  | delete id => exact WF_delete d id h
  | updateGeometry id g => exact WF_update_geometry d id g h
  | moveToTop id => exact WF_move_to_top d id h
  | genId => exact WF_genId d h

theorem WF_applyOps (d : Document) (ops : List DocOp) (h : d.WF) : (applyOps d ops).WF := by
  induction ops generalizing d with
  | nil => exact h
  | cons op rest ih => exact ih _ (WF_applyOp d op h)

/-! ### Monotonicity of the id counter -/

theorem next_le_applyOp (d : Document) (op : DocOp) :
    d.next_shape_id ≤ (applyOp d op).next_shape_id := by
  cases op with
  | upsert id s =>
    simp only [applyOp, upsert_next_shape_id]
    by_cases h : d.next_shape_id ≤ id
    · rw [if_pos h]; omega
    · rw [if_neg h]
  | delete id => exact le_of_eq (delete_next_shape_id d id).symm
  | updateGeometry id g => exact le_of_eq (update_geometry_next_shape_id d id g).symm
  | moveToTop id => exact le_of_eq (move_to_top_next_shape_id d id).symm
  | genId => exact Nat.le_succ _

theorem next_le_applyOps (d : Document) (ops : List DocOp) :
    d.next_shape_id ≤ (applyOps d ops).next_shape_id := by
  induction ops generalizing d with
  | nil => exact le_refl _
  | cons op rest ih => exact le_trans (next_le_applyOp d op) (ih (applyOp d op))

/-! ### Further helper lemmas for the trackers -/

/-- `to_min_span` computes the componentwise minimum and the absolute
difference. -/
theorem to_min_span_eq (x1 x2 : ℚ) : to_min_span x1 x2 = (min x1 x2, |x1 - x2|) := by
  unfold to_min_span
  by_cases h : x1 < x2
  · rw [if_pos h, min_eq_left h.le, abs_sub_comm, abs_of_nonneg (by linarith)]
  · push_neg at h
    rw [if_neg (not_lt.mpr h), min_eq_right h, abs_of_nonneg (by linarith)]

/-- `post_shape_for_event`, re-expressed through min and absolute
difference. -/
theorem post_shape_for_event_min_abs (t : NewRectTracker) (p : XYPoint) (doc : Document) :
    t.post_shape_for_event p doc =
      if 0 < |t.mouse_down.x - p.x| ∧ 0 < |t.mouse_down.y - p.y| then
        doc.upsert_shape_with_id t.shape_id
          { geometry := Geometry.Rectangle
              (XYPoint.new (min t.mouse_down.x p.x) (min t.mouse_down.y p.y))
              (XYPoint.new |t.mouse_down.x - p.x| |t.mouse_down.y - p.y|)
            style := t.style }
      else doc.delete_shape_with_id t.shape_id := by
  unfold NewRectTracker.post_shape_for_event
  rw [to_min_span_eq, to_min_span_eq]

/-- A single drag update rewrites the target's geometry to the captured
geometry offset by the current total delta, keeping the style. -/
theorem get_update_shape_for_drag (t : ShapeDragTracker) (p : XYPoint) (doc : Document)
    (s : Shape) (h : doc.get_shape_by_id t.shape_id = some s) :
    (t.update_shape_for_drag p doc).get_shape_by_id t.shape_id =
      some { geometry := t.initial_geometry.offset_by (p.subtract t.mouse_down)
             style := s.style } := by
  simp only [Document.get_shape_by_id] at h
  simp only [ShapeDragTracker.update_shape_for_drag, Document.get_shape_by_id,
    update_geometry_shapes, hmLookup_hmModifyGeometry_self, h, Option.map_some']

/-! ## The claims -/

/-- C1: for every sequence of calls to `upsert_shape_with_id`,
`delete_shape_with_id`, `update_geometry_for_shape_id` and
`move_shape_with_id_to_top` (and also `generate_shape_id`), starting
from any document satisfying the invariant — together with the
duplicate-free-sequence representation invariant that every document
constructible through the public constructors has — the invariant that
the set of ids in `sequence` equals the key set of `shapes` holds after
every call. -/
theorem C1_mutators_preserve_sequence_key_invariant (d : Document)
    (hnd : d.sequence.Nodup) (hinv : SeqKeyInv d) (ops : List DocOp) :
    SeqKeyInv (applyOps d ops) :=
  (WF_applyOps d ops ⟨hnd, hinv⟩).2

/-- Witness for C1 at a concrete document and call sequence. -/
theorem C1_mutators_preserve_sequence_key_invariant_witness :
    SeqKeyInv (applyOps Document.new_empty
      [DocOp.upsert 3 sampleShape, DocOp.genId, DocOp.upsert 1 sampleShape,
        DocOp.moveToTop 3, DocOp.updateGeometry 3 sampleGeometry, DocOp.delete 3]) :=
  C1_mutators_preserve_sequence_key_invariant Document.new_empty List.nodup_nil
    new_empty_WF.2
    [DocOp.upsert 3 sampleShape, DocOp.genId, DocOp.upsert 1 sampleShape,
      DocOp.moveToTop 3, DocOp.updateGeometry 3 sampleGeometry, DocOp.delete 3]

/-- C2: for every id passed to `upsert_shape_with_id` — including ids
never generated by the document — `next_shape_id` strictly exceeds that
id immediately after the call and after any further sequence of
mutator calls. -/
theorem C2_next_id_exceeds_upserted_id (d : Document) (id : ShapeId) (s : Shape)
    (ops : List DocOp) :
    id < (applyOps (d.upsert_shape_with_id id s) ops).next_shape_id :=
  lt_of_lt_of_le (upsert_next_gt d id s) (next_le_applyOps _ ops)

/-- C3: the Create-Rectangle tracker's move and finish both recompute
the candidate rectangle with origin the componentwise minimum of anchor
and current point and size their componentwise absolute difference,
upserting it when both size components are strictly positive and
deleting the captured id otherwise; a zero drag from (10,10) leaves the
id absent, and an anchor (10,10) with current point (60,40) yields a
rectangle with origin (10,10) and size (50,30). -/
theorem C3_create_rectangle_min_abs_span :
    (∀ (t : NewRectTracker) (p : XYPoint) (doc : Document),
      t.track_mouse_move p doc = (t.post_shape_for_event p doc, TrackerNext.Continue) ∧
      t.track_mouse_up p doc = t.post_shape_for_event p doc) ∧
    (∀ x1 x2 : ℚ, to_min_span x1 x2 = (min x1 x2, |x1 - x2|)) ∧
    (∀ (t : NewRectTracker) (p : XYPoint) (doc : Document),
      t.post_shape_for_event p doc =
        if 0 < |t.mouse_down.x - p.x| ∧ 0 < |t.mouse_down.y - p.y| then
          doc.upsert_shape_with_id t.shape_id
            { geometry := Geometry.Rectangle
                (XYPoint.new (min t.mouse_down.x p.x) (min t.mouse_down.y p.y))
                (XYPoint.new |t.mouse_down.x - p.x| |t.mouse_down.y - p.y|)
              style := t.style }
        else doc.delete_shape_with_id t.shape_id) ∧
    (∀ (doc : Document) (id : ShapeId) (st : Style),
      (NewRectTracker.post_shape_for_event ⟨XYPoint.new 10 10, id, st⟩
          (XYPoint.new 10 10) doc).get_shape_by_id id = none) ∧
    (∀ (doc : Document) (id : ShapeId) (st : Style),
      (NewRectTracker.post_shape_for_event ⟨XYPoint.new 10 10, id, st⟩
          (XYPoint.new 60 40) doc).get_shape_by_id id =
        some { geometry := Geometry.Rectangle (XYPoint.new 10 10) (XYPoint.new 50 30)
               style := st }) := by
  refine ⟨fun t p doc => ⟨rfl, rfl⟩, to_min_span_eq, post_shape_for_event_min_abs, ?_, ?_⟩
  · intro doc id st
    rw [post_shape_for_event_min_abs]
    simp only [XYPoint.new]
    rw [if_neg (by norm_num)]
    simp [Document.get_shape_by_id, delete_shapes, hmLookup_hmErase_self]
  · intro doc id st
    rw [post_shape_for_event_min_abs]
    simp only [XYPoint.new]
    have h1 : |(10 : ℚ) - 60| = 50 := by rw [abs_of_nonpos (by norm_num)]; norm_num
    have h2 : |(10 : ℚ) - 40| = 30 := by rw [abs_of_nonpos (by norm_num)]; norm_num
    have h3 : min (10 : ℚ) 60 = 10 := min_eq_left (by norm_num)
    have h4 : min (10 : ℚ) 40 = 10 := min_eq_left (by norm_num)
    simp only [h1, h2, h3, h4]
    rw [if_pos (by norm_num : (0 : ℚ) < 50 ∧ (0 : ℚ) < 30)]
    simp [Document.get_shape_by_id, upsert_shapes, hmLookup_hmInsert_self]

/-- Folding any list of drag moves and then a final drag over a
document leaves the target shape at the captured geometry offset by the
final total delta. -/
theorem drag_foldl_get (t : ShapeDragTracker) (doc : Document) (s : Shape)
    (h : doc.get_shape_by_id t.shape_id = some s) (moves : List XYPoint) (final : XYPoint) :
    ((moves.foldl (fun d p => t.update_shape_for_drag p d) doc
        |> t.update_shape_for_drag final)).get_shape_by_id t.shape_id =
      some { geometry := t.initial_geometry.offset_by (final.subtract t.mouse_down)
             style := s.style } := by
  induction moves generalizing doc s with
  | nil => exact get_update_shape_for_drag t final doc s h
  | cons q qs ih =>
    simp only [List.foldl_cons]
    exact ih (t.update_shape_for_drag q doc)
      { geometry := t.initial_geometry.offset_by (q.subtract t.mouse_down), style := s.style }
      (get_update_shape_for_drag t q doc s h)

/-- C4: on every move and on finish, the Drag tracker sets the target
shape's geometry to the geometry captured at gesture start translated
by (current point − anchor), computed from the captured geometry and
the total delta, so the final geometry depends only on the final
current point and not on intermediate moves; in particular a rectangle
at origin (0,0) of size (10,10) dragged from anchor (5,5) to (15,5)
ends with origin (10,0) whatever intermediate move happened. -/
theorem C4_drag_is_total_delta_translation :
    (∀ (t : ShapeDragTracker) (doc : Document) (s : Shape),
      doc.get_shape_by_id t.shape_id = some s →
      ∀ (moves : List XYPoint) (final : XYPoint),
        ((moves.foldl (fun d p => t.update_shape_for_drag p d) doc
            |> t.update_shape_for_drag final)).get_shape_by_id t.shape_id =
          some { geometry := t.initial_geometry.offset_by (final.subtract t.mouse_down)
                 style := s.style }) ∧
    (∀ mid : XYPoint,
      ((ShapeDragTracker.mk (XYPoint.new 5 5) 1 (Geometry.rectangle 0 0 10 10)).update_shape_for_drag
          (XYPoint.new 15 5)
          ((ShapeDragTracker.mk (XYPoint.new 5 5) 1
              (Geometry.rectangle 0 0 10 10)).update_shape_for_drag mid
            (Document.new_empty.upsert_shape_with_id 1 sampleShape))).get_shape_by_id 1 =
        some (Shape.new (Geometry.rectangle 10 0 10 10) sampleStyle)) := by
  constructor
  · exact fun t doc s h moves final => drag_foldl_get t doc s h moves final
  · intro mid
    have hstart :
        (Document.new_empty.upsert_shape_with_id 1 sampleShape).get_shape_by_id 1 =
          some sampleShape := by
      simp [Document.get_shape_by_id, upsert_shapes, hmLookup_hmInsert_self]
    have h2 := drag_foldl_get
      (ShapeDragTracker.mk (XYPoint.new 5 5) 1 (Geometry.rectangle 0 0 10 10))
      (Document.new_empty.upsert_shape_with_id 1 sampleShape) sampleShape hstart
      [mid] (XYPoint.new 15 5)
    simp only [List.foldl_cons, List.foldl_nil] at h2
    rw [h2]
    have hg : (Geometry.rectangle 0 0 10 10).offset_by
        ((XYPoint.new 15 5).subtract (XYPoint.new 5 5)) = Geometry.rectangle 10 0 10 10 := by
      simp only [Geometry.rectangle, Geometry.offset_by, XYPoint.subtract, XYPoint.add,
        XYPoint.new]
      norm_num
    rw [hg]
    rfl

/-- Witness for C4 at a concrete tracker, document and gesture. -/
theorem C4_drag_is_total_delta_translation_witness :
    (Document.new_empty.upsert_shape_with_id 1 sampleShape).get_shape_by_id 1 =
        some sampleShape ∧
    (([XYPoint.new 200 300].foldl
        (fun d p =>
          (ShapeDragTracker.mk (XYPoint.new 5 5) 1
            (Geometry.rectangle 0 0 10 10)).update_shape_for_drag p d)
        (Document.new_empty.upsert_shape_with_id 1 sampleShape)
        |> (ShapeDragTracker.mk (XYPoint.new 5 5) 1
            (Geometry.rectangle 0 0 10 10)).update_shape_for_drag
          (XYPoint.new 15 5))).get_shape_by_id 1 =
      some { geometry :=
              (Geometry.rectangle 0 0 10 10).offset_by
                ((XYPoint.new 15 5).subtract (XYPoint.new 5 5))
             style := sampleShape.style } := by
  have hstart :
      (Document.new_empty.upsert_shape_with_id 1 sampleShape).get_shape_by_id 1 =
        some sampleShape := by
    simp [Document.get_shape_by_id, upsert_shapes, hmLookup_hmInsert_self]
  exact ⟨hstart,
    C4_drag_is_total_delta_translation.1
      (ShapeDragTracker.mk (XYPoint.new 5 5) 1 (Geometry.rectangle 0 0 10 10))
      (Document.new_empty.upsert_shape_with_id 1 sampleShape) sampleShape hstart
      [XYPoint.new 200 300] (XYPoint.new 15 5)⟩

theorem skip_white_eq_table (c : Color) :
    get_fill_color_and_advance_skipping_white c = skipWhiteTable c := by
  cases c <;>
    simp [get_fill_color_and_advance_skipping_white, get_fill_color_and_advance,
      Color.advance, skipWhiteTable]

theorem drawSkippingWhiteN_eq_table (n : Nat) (c : Color) :
    drawSkippingWhiteN n c = drawTableN n c := by
  induction n generalizing c with
  | zero => rfl
  | succ k ih =>
    cases c <;>
      simp [drawSkippingWhiteN, drawTableN, skip_white_eq_table, skipWhiteTable,
        Color.advance, ih]

/-- C5 counterexample: starting the cycler at Red, the 9 colors drawn
by `get_fill_color_and_advance_skipping_white` contain Red twice, so
they do not include each of the 8 non-White colors exactly once. -/
theorem C5_nine_draws_repeat_counterexample :
    List.count Color.Red (drawSkippingWhiteN 9 Color.Red).1 = 2 ∧
    ¬ (∀ col : Color, col ≠ Color.White →
        List.count col (drawSkippingWhiteN 9 Color.Red).1 = 1) := by
  simp only [drawSkippingWhiteN_eq_table]
  decide

/-- C5 (amended): starting from any cycler state, 9 successive calls of
`get_fill_color_and_advance_skipping_white` never return White and the
9 returned values include each of the 8 non-White colors at least once;
the first 8 calls return each of those 8 colors exactly once. -/
theorem C5_skip_white_never_white_and_covers (c : Color) :
    Color.White ∉ (drawSkippingWhiteN 9 c).1 ∧
    (∀ col : Color, col ≠ Color.White →
      List.count col (drawSkippingWhiteN 8 c).1 = 1 ∧
      1 ≤ List.count col (drawSkippingWhiteN 9 c).1) := by
  simp only [drawSkippingWhiteN_eq_table]
  cases c <;> decide

/-- Witness for C5's amended claim at concrete colors. -/
theorem C5_skip_white_never_white_and_covers_witness :
    Color.Blue ≠ Color.White ∧
    (List.count Color.Blue (drawSkippingWhiteN 8 Color.Green).1 = 1 ∧
      1 ≤ List.count Color.Blue (drawSkippingWhiteN 9 Color.Green).1) :=
  ⟨by decide, (C5_skip_white_never_white_and_covers Color.Green).2 Color.Blue (by decide)⟩

theorem generateN_mem_ge (n : Nat) (d : Document) (k : ShapeId)
    (h : k ∈ (generateN n d).1) : d.next_shape_id ≤ k := by
  induction n generalizing d with
  | zero => simp [generateN] at h
  | succ m ih =>
    simp only [generateN, Document.generate_shape_id, List.mem_cons] at h
    rcases h with rfl | h
    · exact le_refl _
    · exact le_trans (Nat.le_succ _) (ih _ h)

theorem generateN_length (n : Nat) (d : Document) : ((generateN n d).1).length = n := by
  induction n generalizing d with
  | zero => rfl
  | succ m ih => simp [generateN, ih]

theorem generateN_pairwise_lt (n : Nat) (d : Document) :
    ((generateN n d).1).Pairwise (· < ·) := by
  induction n generalizing d with
  | zero => simp [generateN]
  | succ m ih =>
    simp only [generateN, List.pairwise_cons]
    refine ⟨fun k hk => ?_, ih _⟩
    exact lt_of_lt_of_le (Nat.lt_succ_self _) (generateN_mem_ge m _ k hk)

/-- C6: `generate_shape_id` returns the current `next_shape_id` and
increments it by one, and `N` successive calls on any document yield
`N` strictly increasing, pairwise-distinct ids. -/
theorem C6_generate_id_strictly_increasing :
    (∀ d : Document, d.generate_shape_id =
      (d.next_shape_id, { d with next_shape_id := d.next_shape_id + 1 })) ∧
    (∀ (N : Nat) (d : Document),
      ((generateN N d).1).length = N ∧
      ((generateN N d).1).Pairwise (· < ·) ∧
      ((generateN N d).1).Nodup) :=
  ⟨fun _ => rfl, fun N d =>
    ⟨generateN_length N d, generateN_pairwise_lt N d,
      (generateN_pairwise_lt N d).imp (fun h => Nat.ne_of_lt h)⟩⟩

/-- C7: `upsert_shape_with_id` is idempotent — repeating the same call
leaves the shapes map, the sequence and `next_shape_id` unchanged — and
after the call `get_shape_by_id` returns the upserted shape. -/
theorem C7_upsert_idempotent_roundtrip (d : Document) (id : ShapeId) (s : Shape) :
    (d.upsert_shape_with_id id s).upsert_shape_with_id id s = d.upsert_shape_with_id id s ∧
    (d.upsert_shape_with_id id s).get_shape_by_id id = some s := by
  constructor
  · apply Document.eq_of_fields
    · rw [upsert_shapes, upsert_shapes, hmInsert_idem]
    · have hmem : id ∈ (d.upsert_shape_with_id id s).sequence := by
        rw [upsert_sequence]
        by_cases hm : id ∈ d.sequence
        · rw [if_pos hm]
          exact hm
        · simp [hm]
      rw [upsert_sequence, if_pos hmem]
    · have hgt := upsert_next_gt d id s
      have hne : ¬ ((d.upsert_shape_with_id id s).next_shape_id ≤ id) := not_le.mpr hgt
      rw [upsert_next_shape_id, if_neg hne]
  · simp [Document.get_shape_by_id, upsert_shapes, hmLookup_hmInsert_self]

theorem positionOf_getLast (l : List ShapeId) (id : ShapeId) (hnd : l.Nodup)
    (hlast : l.getLast? = some id) : positionOf l id = some (l.length - 1) := by
  induction l with
  | nil => simp at hlast
  | cons x t ih =>
    cases t with
    | nil =>
      have hx : x = id := by simpa using hlast
      subst hx
      simp [positionOf]
    | cons y u =>
      have hlast' : (y :: u).getLast? = some id := by
        rwa [List.getLast?_cons_cons] at hlast
      rw [List.nodup_cons] at hnd
      have hmem : id ∈ y :: u := by
        have := List.getLast?_eq_getLast (y :: u) (by simp)
        rw [this] at hlast'
        exact (Option.some.inj hlast') ▸ List.getLast_mem (by simp)
      have hxid : ¬ x = id := fun he => hnd.1 (he ▸ hmem)
      rw [show positionOf (x :: y :: u) id = (positionOf (y :: u) id).map (· + 1) by
        simp [positionOf, hxid]]
      rw [ih hnd.2 hlast']
      simp only [Option.map_some', List.length_cons, Option.some.injEq]
      omega

/-- C8: `move_shape_with_id_to_top` leaves the document — in
particular `sequence` — unchanged by value when the id is the last
element of a duplicate-free sequence, and also when the id is absent. -/
theorem C8_move_to_top_noop (d : Document) (id : ShapeId) :
    (d.sequence.Nodup → d.sequence.getLast? = some id →
      d.move_shape_with_id_to_top id = d) ∧
    (id ∉ d.sequence → d.move_shape_with_id_to_top id = d) := by
  constructor
  · intro hnd hlast
    have hpos := positionOf_getLast _ _ hnd hlast
    simp only [Document.move_shape_with_id_to_top, hpos]
    rw [if_neg (by simp)]
  · intro hmem
    have hpos : positionOf d.sequence id = none := (positionOf_eq_none_iff _ _).mpr hmem
    simp only [Document.move_shape_with_id_to_top, hpos]

/-- Witness for C8 at a concrete document: moving the topmost id 2 and
the absent id 7 both leave the document unchanged. -/
theorem C8_move_to_top_noop_witness :
    ((Document.mk [(1, sampleShape), (2, sampleShape)] [1, 2] 3).move_shape_with_id_to_top 2 =
      Document.mk [(1, sampleShape), (2, sampleShape)] [1, 2] 3) ∧
    ((Document.mk [(1, sampleShape), (2, sampleShape)] [1, 2] 3).move_shape_with_id_to_top 7 =
      Document.mk [(1, sampleShape), (2, sampleShape)] [1, 2] 3) :=
  ⟨(C8_move_to_top_noop (Document.mk [(1, sampleShape), (2, sampleShape)] [1, 2] 3) 2).1
      (by decide) rfl,
    (C8_move_to_top_noop (Document.mk [(1, sampleShape), (2, sampleShape)] [1, 2] 3) 7).2
      (by decide)⟩

/-- C9: on an id that is not present in the document,
`delete_shape_with_id` and `update_geometry_for_shape_id` leave the
whole document (shapes map, sequence and `next_shape_id`) unchanged. -/
theorem C9_absent_id_mutations_noop (d : Document) (id : ShapeId) (g : Geometry)
    (hget : d.get_shape_by_id id = none) (hseq : id ∉ d.sequence) :
    d.delete_shape_with_id id = d ∧ d.update_geometry_for_shape_id id g = d := by
  constructor
  · apply Document.eq_of_fields
    · rw [delete_shapes, hmErase_of_lookup_none _ _ hget]
    · rw [delete_sequence, removeFirst_of_not_mem _ _ hseq]
    · rfl
  · apply Document.eq_of_fields
    · rw [update_geometry_shapes, hmModifyGeometry_of_lookup_none _ _ g hget]
    · rfl
    · rfl

/-- Witness for C9 at a concrete document and absent id. -/
theorem C9_absent_id_mutations_noop_witness :
    (Document.mk [(1, sampleShape)] [1] 2).delete_shape_with_id 5 =
      Document.mk [(1, sampleShape)] [1] 2 ∧
    (Document.mk [(1, sampleShape)] [1] 2).update_geometry_for_shape_id 5 sampleGeometry =
      Document.mk [(1, sampleShape)] [1] 2 :=
  C9_absent_id_mutations_noop (Document.mk [(1, sampleShape)] [1] 2) 5 sampleGeometry
    rfl (by decide)

/-! ### Lemmas for `new_from_pairs` -/

theorem hmContainsKey_hmInsert (m : List (ShapeId × Shape)) (k : ShapeId) (v : Shape)
    (k' : ShapeId) :
    hmContainsKey (hmInsert m k v) k' = true ↔ (k' = k ∨ hmContainsKey m k' = true) := by
  by_cases h : k' = k
  · subst h; simp [hmContainsKey, hmLookup_hmInsert_self]
  · simp [hmContainsKey, hmLookup_hmInsert_ne _ _ _ _ h, h]

theorem new_from_pairs_aux_ok (pairs : List (ShapeId × Shape)) :
    ∀ (doc d' : Document), Document.new_from_pairs_aux doc pairs = .ok d' →
      d'.sequence = doc.sequence ++ pairs.map Prod.fst ∧
      doc.next_shape_id ≤ d'.next_shape_id ∧
      (∀ k, hmContainsKey doc.shapes k = true →
        hmLookup d'.shapes k = hmLookup doc.shapes k) ∧
      (∀ p ∈ pairs, hmLookup d'.shapes p.1 = some p.2) ∧
      (∀ p ∈ pairs, p.1 < d'.next_shape_id) := by
  induction pairs with
  | nil =>
    intro doc d' h
    simp only [Document.new_from_pairs_aux, Except.ok.injEq] at h
    subst h
    simp
  | cons p rest ih =>
    obtain ⟨i, s⟩ := p
    intro doc d' h
    by_cases hc : hmContainsKey doc.shapes i = true
    · simp [Document.new_from_pairs_aux, hc] at h
    · rw [show Document.new_from_pairs_aux doc ((i, s) :: rest) =
          Document.new_from_pairs_aux
            { doc with
              sequence := doc.sequence ++ [i]
              shapes := hmInsert doc.shapes i s
              next_shape_id :=
                if doc.next_shape_id ≤ i then i + 1 else doc.next_shape_id } rest by
        simp [Document.new_from_pairs_aux, hc]] at h
      obtain ⟨ha, hb, hpres, hd, he⟩ := ih _ _ h
      have hnext1 : doc.next_shape_id ≤
          (if doc.next_shape_id ≤ i then i + 1 else doc.next_shape_id) := by
        by_cases hle : doc.next_shape_id ≤ i
        · rw [if_pos hle]
          exact Nat.le_succ_of_le hle
        · rw [if_neg hle]
      have hinext : i < (if doc.next_shape_id ≤ i then i + 1 else doc.next_shape_id) := by
        by_cases hle : doc.next_shape_id ≤ i
        · rw [if_pos hle]
          exact Nat.lt_succ_self i
        · rw [if_neg hle]
          exact Nat.lt_of_not_le hle
      refine ⟨?_, ?_, ?_, ?_, ?_⟩
      · rw [ha]
        simp [List.append_assoc]
      · exact le_trans hnext1 hb
      · intro k hk
        have hki : ¬ k = i := fun he' => hc (he' ▸ hk)
        have hck : hmContainsKey (hmInsert doc.shapes i s) k = true := by
          simpa [hmContainsKey, hmLookup_hmInsert_ne _ _ _ _ hki] using hk
        rw [hpres k hck]
        exact hmLookup_hmInsert_ne _ _ _ _ hki
      · intro q hq
        rcases List.mem_cons.mp hq with heq | hq'
        · subst heq
          have hci : hmContainsKey (hmInsert doc.shapes i s) i = true := by
            simp [hmContainsKey, hmLookup_hmInsert_self]
          exact (hpres i hci).trans (hmLookup_hmInsert_self doc.shapes i s)
        · exact hd q hq'
      · intro q hq
        rcases List.mem_cons.mp hq with heq | hq'
        · subst heq
          exact lt_of_lt_of_le hinext hb
        · exact he q hq'

theorem new_from_pairs_aux_error_iff (pairs : List (ShapeId × Shape)) :
    ∀ (doc : Document) (seen : List ShapeId),
      (∀ k, k ∈ seen ↔ hmContainsKey doc.shapes k = true) →
      ∀ i, (Document.new_from_pairs_aux doc pairs = .error (.DuplicateShapeId i) ↔
        specFirstRepeatedId seen (pairs.map Prod.fst) = some i) := by
  induction pairs with
  | nil =>
    intro doc seen hcorr i
    simp [Document.new_from_pairs_aux, specFirstRepeatedId]
  | cons p rest ih =>
    obtain ⟨j, s⟩ := p
    intro doc seen hcorr i
    by_cases hc : hmContainsKey doc.shapes j = true
    · have hj : j ∈ seen := (hcorr j).mpr hc
      simp [Document.new_from_pairs_aux, hc, specFirstRepeatedId, hj]
    · have hj : j ∉ seen := fun hmem => hc ((hcorr j).mp hmem)
      rw [show Document.new_from_pairs_aux doc ((j, s) :: rest) =
          Document.new_from_pairs_aux
            { doc with
              sequence := doc.sequence ++ [j]
              shapes := hmInsert doc.shapes j s
              next_shape_id :=
                if doc.next_shape_id ≤ j then j + 1 else doc.next_shape_id } rest by
        simp [Document.new_from_pairs_aux, hc]]
      rw [show specFirstRepeatedId seen (((j, s) :: rest).map Prod.fst) =
          specFirstRepeatedId (j :: seen) (rest.map Prod.fst) by
        simp [specFirstRepeatedId, hj]]
      apply ih
      intro k
      constructor
      · intro hk
        rcases List.mem_cons.mp hk with rfl | hk'
        · simp [hmContainsKey, hmLookup_hmInsert_self]
        · by_cases hkj : k = j
          · subst hkj; simp [hmContainsKey, hmLookup_hmInsert_self]
          · have := (hcorr k).mp hk'
            simpa [hmContainsKey, hmLookup_hmInsert_ne _ _ _ _ hkj] using this
      · intro hk
        by_cases hkj : k = j
        · exact hkj ▸ List.mem_cons_self _ _
        · have hck : hmContainsKey doc.shapes k = true := by
            simpa [hmContainsKey, hmLookup_hmInsert_ne _ _ _ _ hkj] using hk
          exact List.mem_cons_of_mem _ ((hcorr k).mpr hck)

theorem specFirstRepeatedId_eq_none_iff (l : List ShapeId) :
    ∀ seen, specFirstRepeatedId seen l = none ↔ (l.Nodup ∧ ∀ k ∈ l, k ∉ seen) := by
  induction l with
  | nil => intro seen; simp [specFirstRepeatedId]
  | cons j rest ih =>
    intro seen
    simp only [specFirstRepeatedId]
    by_cases hj : j ∈ seen
    · rw [if_pos hj]
      constructor
      · intro h; exact absurd h (by simp)
      · rintro ⟨-, hall⟩
        exact absurd hj (hall j (List.mem_cons_self j rest))
    · rw [if_neg hj, ih (j :: seen)]
      constructor
      · rintro ⟨hnd, hall⟩
        refine ⟨List.nodup_cons.mpr ⟨fun hjr => ?_, hnd⟩, ?_⟩
        · exact (hall j hjr) (List.mem_cons_self j seen)
        · intro k hk
          rcases List.mem_cons.mp hk with rfl | hk'
          · exact hj
          · exact fun hks => (hall k hk') (List.mem_cons_of_mem _ hks)
      · rintro ⟨hnd, hall⟩
        rw [List.nodup_cons] at hnd
        refine ⟨hnd.2, ?_⟩
        intro k hk hkjseen
        rcases List.mem_cons.mp hkjseen with rfl | hks
        · exact hnd.1 hk
        · exact (hall k (List.mem_cons_of_mem _ hk)) hks

theorem new_empty_seen_corr :
    ∀ k, k ∈ ([] : List ShapeId) ↔ hmContainsKey Document.new_empty.shapes k = true := by
  intro k
  simp [Document.new_empty, hmContainsKey, hmLookup]

/-- C10: `new_from_pairs` returns `DuplicateShapeId` exactly when the
input ids are not duplicate-free, reporting the first id that repeats
an earlier one; on success the resulting document lists the input ids
in order in `sequence`, maps each id to its paired shape, and has
`next_shape_id` strictly greater than every input id. -/
theorem C10_new_from_pairs_spec :
    (∀ pairs : List (ShapeId × Shape),
      (∃ e, Document.new_from_pairs pairs = .error e) ↔ ¬ (pairs.map Prod.fst).Nodup) ∧
    (∀ (pairs : List (ShapeId × Shape)) (i : ShapeId),
      Document.new_from_pairs pairs = .error (.DuplicateShapeId i) ↔
        specFirstRepeatedId [] (pairs.map Prod.fst) = some i) ∧
    (∀ (pairs : List (ShapeId × Shape)) (d : Document),
      Document.new_from_pairs pairs = .ok d →
        d.sequence = pairs.map Prod.fst ∧
        (∀ p ∈ pairs, d.get_shape_by_id p.1 = some p.2) ∧
        (∀ p ∈ pairs, p.1 < d.next_shape_id)) := by
  have herr := fun pairs i => new_from_pairs_aux_error_iff pairs Document.new_empty []
    new_empty_seen_corr i
  refine ⟨?_, fun pairs i => herr pairs i, ?_⟩
  · intro pairs
    constructor
    · rintro ⟨e, he⟩
      obtain ⟨i⟩ := e
      have hsome := (herr pairs i).mp he
      intro hnd
      have hnone : specFirstRepeatedId [] (pairs.map Prod.fst) = none :=
        (specFirstRepeatedId_eq_none_iff _ []).mpr ⟨hnd, by simp⟩
      rw [hnone] at hsome
      exact absurd hsome (by simp)
    · intro hnd
      cases hres : Document.new_from_pairs pairs with
      | error e => exact ⟨e, rfl⟩
      | ok d =>
        exfalso
        cases hspec : specFirstRepeatedId [] (pairs.map Prod.fst) with
        | none =>
          exact hnd ((specFirstRepeatedId_eq_none_iff _ []).mp hspec).1
        | some i =>
          have h2 : Document.new_from_pairs pairs =
              Except.error (DocError.DuplicateShapeId i) := (herr pairs i).mpr hspec
          rw [hres] at h2
          exact absurd h2 (by simp)
  · intro pairs d h
    obtain ⟨ha, -, -, hd, he⟩ := new_from_pairs_aux_ok pairs Document.new_empty d h
    refine ⟨by simpa [Document.new_empty] using ha, hd, he⟩

/-- Witness for C10: building a document from two distinct ids
succeeds with the expected sequence, lookups and id bound. -/
theorem C10_new_from_pairs_spec_witness :
    (Document.mk [(2, sampleShape), (5, sampleShape)] [2, 5] 6).sequence =
      [(2, sampleShape), (5, sampleShape)].map Prod.fst ∧
    (∀ p ∈ [(2, sampleShape), (5, sampleShape)],
      (Document.mk [(2, sampleShape), (5, sampleShape)] [2, 5] 6).get_shape_by_id p.1 =
        some p.2) ∧
    (∀ p ∈ [(2, sampleShape), (5, sampleShape)],
      p.1 < (Document.mk [(2, sampleShape), (5, sampleShape)] [2, 5] 6).next_shape_id) :=
  C10_new_from_pairs_spec.2.2 [(2, sampleShape), (5, sampleShape)]
    (Document.mk [(2, sampleShape), (5, sampleShape)] [2, 5] 6) rfl

end PclDemo
